import Mathlib

/-!
# Shipkey core: shallow embedding and verification

This development embeds the core pure logic of the `shipkey` CLI
(secret discovery / classification / config reconciliation and the
secret-backend abstraction) into Lean and proves or refutes the
specification's claims about it.

Strings are modelled as `List Char` (`Str`), so that all string
operations (trim, split, indexOf, slice, …) are plain structural
recursion that the kernel can evaluate.
-/

namespace Shipkey

/-- JS strings are modelled as lists of characters. -/
abbrev Str := List Char

/-- Convert a Lean string literal to the `Str` model. -/
def str (s : String) : Str := s.data

instance [DecidableEq ε] [DecidableEq α] : DecidableEq (Except ε α) := fun a b =>
  match a, b with
  | .ok x, .ok y =>
    if h : x = y then isTrue (by rw [h])
    else isFalse (by intro hc; cases hc; exact h rfl)
  | .error x, .error y =>
    if h : x = y then isTrue (by rw [h])
    else isFalse (by intro hc; cases hc; exact h rfl)
  | .ok _, .error _ => isFalse (by intro hc; cases hc)
  | .error _, .ok _ => isFalse (by intro hc; cases hc)

/-! ## Generic list utilities mirroring JS idioms -/

/-- `ddfAux seen l` keeps the first occurrence of each element of `l`
not already in `seen` (the iteration order of a JS `Set`). -/
def ddfAux [DecidableEq α] (seen : List α) : List α → List α
  | [] => []
  | x :: xs => if x ∈ seen then ddfAux seen xs else x :: ddfAux (x :: seen) xs

/-- `[...new Set(l)]` : deduplicate keeping first occurrences, in order. -/
def ddf [DecidableEq α] (l : List α) : List α := ddfAux [] l

/-- First-match association-list lookup: JS object property access. -/
def lookup (m : List (Str × β)) (k : Str) : Option β :=
  match m with
  | [] => none
  | (k', v) :: rest => if k' = k then some v else lookup rest k

/-- `Object.keys` of an insertion-ordered record. -/
def keysOf (m : List (Str × β)) : List Str := m.map Prod.fst

/-! ## Character/string primitives -/

/-- `String.prototype.indexOf` for a single character. -/
def idxOf (c : Char) : Str → Option Nat
  | [] => none
  | x :: xs => if x = c then some 0 else (idxOf c xs).map (· + 1)

/-- `String.prototype.lastIndexOf` for a single character. -/
def lastIdxOf (c : Char) (s : Str) : Option Nat :=
  match idxOf c s.reverse with
  | none => none
  | some i => some (s.length - 1 - i)

/-- JS whitespace for `String.prototype.trim` (ASCII fragment). -/
def isWs (c : Char) : Bool :=
  c = ' ' ∨ c = '\t' ∨ c = '\n' ∨ c = '\r' ∨ c = '\x0b' ∨ c = '\x0c'

/-- `String.prototype.trim`. -/
def trim (s : Str) : Str :=
  ((s.dropWhile isWs).reverse.dropWhile isWs).reverse

/-- `String.prototype.split` at a separator character. -/
def splitOnChar (c : Char) : Str → List Str
  | [] => [[]]
  | x :: xs =>
    match splitOnChar c xs with
    | [] => [[]]
    | y :: ys => if x = c then [] :: y :: ys else (x :: y) :: ys

/-- `String.prototype.includes` : substring containment. -/
def containsSub (hay needle : Str) : Bool :=
  needle.isPrefixOf hay ||
    match hay with
    | [] => false
    | _ :: t => containsSub t needle

/-! ## DotenvLineParser (src/scanner/parsers/dotenv.ts) -/

structure ParsedVar where
  key : Str
  value : Str
deriving DecidableEq, Repr

/-- The quote-stripping step of `parseDotenv`: if the trimmed value starts
and ends with `"` (or starts and ends with `'`), `value.slice(1, -1)`. -/
def stripQuotes (v : Str) : Str :=
  if (v.head? = some '"' ∧ v.getLast? = some '"') ∨
     (v.head? = some '\'' ∧ v.getLast? = some '\'') then
    (v.drop 1).dropLast
  else v

/-- One iteration of the `parseDotenv` loop: `none` when the line is
skipped (blank, comment, or without `=`). -/
def parseLine (rawLine : Str) : Option ParsedVar :=
  let line := trim rawLine
  if line = [] then none
  else if line.head? = some '#' then none
  else
    match idxOf '=' line with
    | none => none
    | some eqIndex =>
      some ⟨trim (line.take eqIndex), stripQuotes (trim (line.drop (eqIndex + 1)))⟩

/-- `parseDotenv` from `src/scanner/parsers/dotenv.ts`. -/
def parseDotenv (content : Str) : List ParsedVar :=
  (splitOnChar '\n' content).filterMap parseLine

/-! ## Bitwarden field-name codec (src/backends/bitwarden.ts) -/

structure SecretRef where
  vault : Str
  provider : Str
  project : Str
  env : Str
  field : Str
deriving DecidableEq, Repr

structure ParsedField where
  project : Str
  env : Str
  field : Str
deriving DecidableEq, Repr

/-- `BitwardenBackend.sectionName`. -/
def sectionName (project env : Str) : Str := project ++ '-' :: env

/-- `BitwardenBackend.buildFieldName`: `"project-env.FIELD_NAME"`. -/
def buildFieldName (ref : SecretRef) : Str :=
  sectionName ref.project ref.env ++ '.' :: ref.field

/-- `BitwardenBackend.parseFieldName`: split at the first `.`, then split
the section at the last `-`; `null` when either separator is absent. -/
def parseFieldName (fieldName : Str) : Option ParsedField :=
  match idxOf '.' fieldName with
  | none => none
  | some dotIndex =>
    let sect := fieldName.take dotIndex
    let field := fieldName.drop (dotIndex + 1)
    match lastIdxOf '-' sect with
    | none => none
    | some dashIndex =>
      some ⟨sect.take dashIndex, sect.drop (dashIndex + 1), field⟩

/-! ## FileScanner (scanner index: ENV_PATTERNS, SKIP_DIRS, walkDir, scan) -/

structure EnvVar where
  key : Str
  value : Option Str
  source : Str
  isTemplate : Bool
deriving DecidableEq, Repr

structure ScannedFile where
  path : Str
  isTemplate : Bool
  vars : List EnvVar
deriving DecidableEq, Repr

structure SubProjectGroup where
  path : Str
  files : List ScannedFile
deriving DecidableEq, Repr

structure ScanResult where
  groups : List SubProjectGroup
  totalVars : Nat
  totalFiles : Nat
deriving DecidableEq, Repr

/-- A regex `.+` tail: non-empty and free of newlines (JS `.` excludes `\n`,
and the patterns are not multiline). -/
def dotPlus (s : Str) : Bool := !s.isEmpty && !s.contains '\n'

/-- `ENV_PATTERNS.some((p) => p.test(filename))`: the four anchored regexes
`^\.env$`, `^\.env\..+$`, `^\.dev\.vars$`, `^\.dev\.vars\..+$`. -/
def isEnvFile (filename : Str) : Bool :=
  filename = str ".env" ||
  ((str ".env.").isPrefixOf filename && dotPlus (filename.drop 5)) ||
  filename = str ".dev.vars" ||
  ((str ".dev.vars.").isPrefixOf filename && dotPlus (filename.drop 10))

/-- `SKIP_DIRS`. -/
def SKIP_DIRS : List Str :=
  [str "node_modules", str ".git", str "dist", str "build",
   str ".next", str ".turbo", str ".cache"]

/-- `isTemplate(filename)`: the scanner calls it on the file's relative
path. -/
def isTemplatePath (path : Str) : Bool :=
  containsSub path (str ".example") || containsSub path (str ".template")

/-- `join` of a relative prefix with an entry name (the scanner only ever
sees paths relative to the scan root). -/
def joinRel (pre name : Str) : Str :=
  if pre = [] then name else pre ++ '/' :: name

/-- One node of the file tree handed to the scanner. -/
inductive FSEntry where
  | file (name : Str) (content : Str)
  | dir (name : Str) (entries : List FSEntry)

/-- `walkDir`: recursively collect `(relative path, content)` of files whose
name matches `ENV_PATTERNS`, skipping `SKIP_DIRS` directories. `fuel`
bounds the recursion depth (the TypeScript recursion is unbounded; every
claim here is proved for all fuel or at fuel that covers the tree). -/
def walkEntries (fuel : Nat) (pre : Str) (es : List FSEntry) : List (Str × Str) :=
  match fuel with
  | 0 => []
  | fuel + 1 =>
    es.foldr
      (fun e acc =>
        (match e with
         | .file name content =>
           if isEnvFile name then [(joinRel pre name, content)] else []
         | .dir name sub =>
           if name ∈ SKIP_DIRS then []
           else walkEntries fuel (joinRel pre name) sub) ++ acc)
      []

/-- Node's `dirname` on the relative paths the scanner produces. -/
def dirname (p : Str) : Str :=
  match lastIdxOf '/' p with
  | none => ['.']
  | some i => p.take i

/-- Build the `ScannedFile` for one discovered file: parse it, and discard
every value when the path signals a template. -/
def mkScannedFile (path content : Str) : ScannedFile :=
  let parsed := parseDotenv content
  let template := isTemplatePath path
  { path := path
    isTemplate := template
    vars := parsed.map fun v =>
      { key := v.key
        value := if template then none else some v.value
        source := path
        isTemplate := template } }

/-- `groupMap.get(groupKey)!.push(...)` with insertion-ordered keys. -/
def addToGroup (m : List (Str × List ScannedFile)) (k : Str) (f : ScannedFile) :
    List (Str × List ScannedFile) :=
  match m with
  | [] => [(k, [f])]
  | (k', fs) :: rest =>
    if k' = k then (k', fs ++ [f]) :: rest else (k', fs) :: addToGroup rest k f

/-- `scan(projectRoot)` over a modelled file tree (the root's entries). -/
def scan (fuel : Nat) (root : List FSEntry) : ScanResult :=
  let foundFiles := walkEntries fuel [] root
  let groupMap := foundFiles.foldl
    (fun m pc => addToGroup m (dirname pc.1) (mkScannedFile pc.1 pc.2)) []
  let groups := groupMap.map fun pf => SubProjectGroup.mk pf.1 pf.2
  { groups := groups
    totalFiles := foundFiles.length
    totalVars := groups.foldr
      (fun g sum => g.files.foldr (fun f s => f.vars.length + s) 0 + sum) 0 }

/-! ## ProviderClassifier (src/providers/registry.ts) -/

/-- A case-insensitive pattern: either a plain substring regex `/TEXT/i`
or an anchored prefix regex `/^TEXT/i`. -/
inductive Pat where
  | sub (text : Str)
  | pre (text : Str)
deriving DecidableEq, Repr

structure ProviderDefinition where
  name : Str
  patterns : List Pat
  guide_url : Option Str := none
  guide : Option Str := none
deriving DecidableEq, Repr

/-- ASCII upper-casing, the effect of the `i` regex flag on these keys. -/
def upperStr (s : Str) : Str := s.map Char.toUpper

/-- `p.test(key)` for the registry's case-insensitive patterns. -/
def patTest (p : Pat) (key : Str) : Bool :=
  match p with
  | .sub t => containsSub (upperStr key) (upperStr t)
  | .pre t => (upperStr t).isPrefixOf (upperStr key)

/-- The ordered `PROVIDERS` rule table (guide metadata elided where absent
in the source). -/
def PROVIDERS : List ProviderDefinition :=
  [ { name := str "OpenRouter", patterns := [.sub (str "OPENROUTER")],
      guide_url := some (str "https://openrouter.ai/keys"),
      guide := some (str "OpenRouter → Keys → Create Key") },
    { name := str "OpenAI", patterns := [.sub (str "OPENAI")],
      guide_url := some (str "https://platform.openai.com/api-keys"),
      guide := some (str "OpenAI Platform → API Keys → Create new secret key") },
    { name := str "Stripe", patterns := [.sub (str "STRIPE")],
      guide_url := some (str "https://dashboard.stripe.com/apikeys"),
      guide := some (str "Stripe Dashboard → Developers → API Keys") },
    { name := str "GitHub OAuth", patterns := [.sub (str "GITHUB")],
      guide_url := some (str "https://github.com/settings/developers"),
      guide := some (str "GitHub → Settings → Developer settings → OAuth Apps") },
    { name := str "fal.ai", patterns := [.sub (str "FAL")],
      guide_url := some (str "https://fal.ai/dashboard/keys"),
      guide := some (str "fal.ai → Dashboard → Keys") },
    { name := str "Database", patterns := [.sub (str "DATABASE"), .pre (str "DB_")] },
    { name := str "Redis", patterns := [.sub (str "REDIS")] },
    { name := str "Cloudflare", patterns := [.sub (str "CLOUDFLARE")],
      guide_url := some (str "https://dash.cloudflare.com/profile/api-tokens"),
      guide := some (str "Cloudflare Dashboard → Profile → API Tokens → Create Token") },
    { name := str "npm", patterns := [.pre (str "NPM")],
      guide_url := some (str "https://www.npmjs.com/settings/~/tokens"),
      guide := some (str "npmjs.com → Access Tokens → Generate New Token (Classic) → Publish") },
    { name := str "Resend", patterns := [.sub (str "RESEND")],
      guide_url := some (str "https://resend.com/api-keys"),
      guide := some (str "Resend → API Keys → Create API Key") },
    { name := str "AWS", patterns := [.pre (str "AWS")],
      guide_url := some (str "https://console.aws.amazon.com/iam/"),
      guide := some (str "AWS Console → IAM → Users → Security credentials") },
    { name := str "Vercel", patterns := [.sub (str "VERCEL")],
      guide_url := some (str "https://vercel.com/account/tokens"),
      guide := some (str "Vercel → Account Settings → Tokens") },
    { name := str "Fly", patterns := [.sub (str "FLY")],
      guide_url := some (str "https://fly.io/user/personal_access_tokens"),
      guide := some (str "Fly.io → Account → Access Tokens") },
    { name := str "Supabase", patterns := [.sub (str "SUPABASE")],
      guide_url := some (str "https://supabase.com/dashboard/project/_/settings/api"),
      guide := some (str "Supabase → Project Settings → API") },
    { name := str "Turso", patterns := [.sub (str "TURSO")],
      guide_url := some (str "https://turso.tech/app"),
      guide := some (str "Turso → Dashboard → Database → Create Token") },
    { name := str "Session", patterns := [.sub (str "SESSION")] } ]

/-- The `for` loop of `guessProvider` over an explicit rule list. -/
def guessProviderAux (rules : List ProviderDefinition) (key : Str) : Str :=
  match rules with
  | [] => str "General"
  | p :: ps => if p.patterns.any (patTest · key) then p.name else guessProviderAux ps key

/-- `guessProvider(key)` from `src/providers/registry.ts`. -/
def guessProvider (key : Str) : Str := guessProviderAux PROVIDERS key

/-! ## SecretBackend availability state machine -/

inductive BackendStatus where
  | not_installed
  | not_logged_in
  | ready
deriving DecidableEq, Repr

/-- The external world as the Bitwarden `checkStatus` probe observes it:
whether `bw --version` succeeds, and the `.status` field of `bw status`
(`Except` error covers both a failing command and unparsable JSON). -/
structure BwCli where
  installed : Bool
  statusField : Except Unit Str
deriving Repr

/-- `BitwardenBackend.checkStatus`. -/
def bwCheckStatus (w : BwCli) : BackendStatus :=
  if !w.installed then .not_installed
  else
    match w.statusField with
    | .error _ => .not_logged_in
    | .ok s =>
      if s = str "unauthenticated" then .not_logged_in
      else if s = str "locked" then .not_logged_in
      else .ready

/-- `BitwardenBackend.isAvailable`. -/
def bwIsAvailable (w : BwCli) : Bool := bwCheckStatus w = .ready

/-- The world as the 1Password `checkStatus` probe observes it: whether
`op --version` succeeds, and the parse of `op account list --format=json`
(`ok none` = parsed but not an array, `ok (some l)` = parsed array). -/
structure OpCli where
  installed : Bool
  accounts : Except Unit (Option (List Str))
deriving Repr

/-- `OnePasswordBackend.checkStatus`. -/
def opCheckStatus (w : OpCli) : BackendStatus :=
  if !w.installed then .not_installed
  else
    match w.accounts with
    | .error _ => .not_logged_in
    | .ok none => .not_logged_in
    | .ok (some accts) => if accts.isEmpty then .not_logged_in else .ready

/-- `OnePasswordBackend.isAvailable`. -/
def opIsAvailable (w : OpCli) : Bool := opCheckStatus w = .ready

/-! ## Backend list operations over modelled store state -/

/-- `if (project && parsed.project !== project) continue;` — the filter
applies only when the argument is present and truthy (non-empty). -/
def passFilter (flt : Option Str) (v : Str) : Bool :=
  match flt with
  | none => true
  | some f => if f = [] then true else v = f

structure BwField where
  name : Str
  value : Str
deriving DecidableEq, Repr

structure BwItem where
  id : Str
  name : Str
  folderId : Option Str
  fields : Option (List BwField)
deriving DecidableEq, Repr

structure BwFolder where
  id : Str
  name : Str
deriving DecidableEq, Repr

/-- The Bitwarden store as seen through the `bw` CLI. -/
structure BwStore where
  status : Str
  folders : List BwFolder
  items : List BwItem
deriving DecidableEq, Repr

/-- The inner loop of `BitwardenBackend.list`: decode every custom-field
name of one item, keeping those that pass the project/env filters. -/
def bwItemRefs (vault : Str) (project env : Option Str) (item : BwItem) :
    List SecretRef :=
  match item.fields with
  | none => []
  | some fs => fs.filterMap fun fld =>
    match parseFieldName fld.name with
    | none => none
    | some parsed =>
      if passFilter project parsed.project ∧ passFilter env parsed.env then
        some { vault := vault, provider := item.name,
               project := parsed.project, env := parsed.env,
               field := parsed.field }
      else none

/-- `BitwardenBackend.list(project?, env?, vault = "shipkey")`:
`ensureUnlocked`, find the folder by name (absent folder means `[]`),
then decode every custom-field name of every item in the folder. -/
def bwList (st : BwStore) (project env : Option Str) (vault : Str) :
    Except Str (List SecretRef) :=
  if st.status = str "locked" then
    .error (str "Bitwarden vault is locked. Run: bw unlock")
  else if st.status = str "unauthenticated" then
    .error (str "Bitwarden CLI not logged in. Run: bw login")
  else
    match st.folders.find? (fun f => f.name = vault) with
    | none => .ok []
    | some folder =>
      let items := st.items.filter (fun i => i.folderId = some folder.id)
      .ok <| items.foldr (fun item acc => bwItemRefs vault project env item ++ acc) []

structure OpField where
  sectionLabel : Option Str
  label : Str
deriving DecidableEq, Repr

structure OpItem where
  title : Str
  id : Str
  fields : Option (List OpField)
deriving DecidableEq, Repr

/-- The 1Password store as seen through the `op` CLI: vault name → items. -/
structure OpStore where
  vaults : List (Str × List OpItem)
deriving DecidableEq, Repr

/-- The inner loop of `OnePasswordBackend.list`: decode each field's
section label of one item at its last `-`, skipping fields without a
truthy section label, keeping those that pass the filters. -/
def opItemRefs (vault : Str) (project env : Option Str) (item : OpItem) :
    List SecretRef :=
  match item.fields with
  | none => []
  | some fs => fs.filterMap fun fld =>
    match fld.sectionLabel with
    | none => none
    | some sect =>
      if sect = [] then none
      else
        match lastIdxOf '-' sect with
        | none => none
        | some dashIndex =>
          if passFilter project (sect.take dashIndex) ∧
             passFilter env (sect.drop (dashIndex + 1)) then
            some { vault := vault, provider := item.title,
                   project := sect.take dashIndex,
                   env := sect.drop (dashIndex + 1), field := fld.label }
          else none

/-- `OnePasswordBackend.list(project?, env?, vault = "shipkey")`:
`op item list --vault <vault>` fails (the promise rejects) when the vault
does not exist; otherwise decode every section-labelled field of every
item. -/
def opList (st : OpStore) (project env : Option Str) (vault : Str) :
    Except Str (List SecretRef) :=
  match lookup st.vaults vault with
  | none => .error (str "op command failed: vault not found")
  | some items =>
    .ok <| items.foldr (fun item acc => opItemRefs vault project env item ++ acc) []

/-! ## ShipkeyConfig and ConfigMerger (src/config.ts, setup command) -/

structure PermissionHint where
  permission : Str
  source : Str
deriving DecidableEq, Repr

structure ProviderConfig where
  fields : List Str
  guide_url : Option Str := none
  guide : Option Str := none
  permissions : Option (List PermissionHint) := none
deriving DecidableEq, Repr

/-- `Record<string, ProviderConfig>` as an insertion-ordered record. -/
abbrev ProvMap := List (Str × ProviderConfig)

/-- A destination's value in `TargetConfig`: field-name array or
name→reference object. -/
inductive TargetValue where
  | arr (fields : List Str)
  | obj (entries : List (Str × Str))
deriving DecidableEq, Repr

abbrev TargetConfig := List (Str × TargetValue)

structure TargetsRec where
  github : Option TargetConfig := none
  cloudflare : Option TargetConfig := none
deriving DecidableEq, Repr

structure ShipkeyConfig where
  project : Str
  vault : Str
  backend : Option Str := none
  providers : Option ProvMap := none
  targets : Option TargetsRec := none
deriving DecidableEq, Repr

/-- `x && { k: x }` spreading for an optional string: the key survives only
when the value is truthy (present and non-empty). -/
def truthy (o : Option Str) : Option Str :=
  match o with
  | some s => if s = [] then none else some s
  | none => none

/-- `sp.permissions && sp.permissions.length > 0 && { permissions: ... }`. -/
def nonemptyOpt (o : Option (List PermissionHint)) : Option (List PermissionHint) :=
  match o with
  | some l => if l = [] then none else some l
  | none => none

/-- The both-present provider branch of `mergeConfigs`: field-set union,
guides kept from `existing` (when truthy), permissions refreshed from the
scan (when present and non-empty). -/
def mergeProvEntry (ep sp : ProviderConfig) : ProviderConfig :=
  { fields := ddf (ep.fields ++ sp.fields)
    guide_url := truthy ep.guide_url
    guide := truthy ep.guide
    permissions := nonemptyOpt sp.permissions }

/-- The provider loop of `mergeConfigs`. -/
def mergeProviders (eP sP : ProvMap) : ProvMap :=
  (ddf (keysOf eP ++ keysOf sP)).map fun n =>
    (n, match lookup eP n, lookup sP n with
        | some ep, some sp => mergeProvEntry ep sp
        | some ep, none => ep
        | none, some sp => sp
        | none, none => { fields := [] })

/-- One destination of the target merge: two arrays union (deduplicated);
otherwise `eKeys || sKeys` (arrays and objects are truthy in JS). -/
def mergeDest : Option TargetValue → Option TargetValue → TargetValue
  | some (.arr a), some (.arr b) => .arr (ddf (a ++ b))
  | some v, _ => v
  | none, some v => v
  | none, none => .arr []

/-- The per-platform destination merge; `none` when there are no
destinations (the platform key is then left unset). -/
def mergeTargetCfg (eT sT : TargetConfig) : Option TargetConfig :=
  if ddf (keysOf eT ++ keysOf sT) = [] then none
  else some ((ddf (keysOf eT ++ keysOf sT)).map fun d =>
    (d, mergeDest (lookup eT d) (lookup sT d)))

/-- Assemble `merged.targets` from the two per-platform results, with the
trailing `delete merged.targets` when both keys ended up unset. -/
def combineTargets (g c : Option TargetConfig) : Option TargetsRec :=
  match g, c with
  | none, none => none
  | _, _ => some { github := g, cloudflare := c }

/-- The `targets` section of `mergeConfigs` (skipped entirely when
neither input has a `targets` key). -/
def mergeTargets (e s : Option TargetsRec) : Option TargetsRec :=
  match e, s with
  | none, none => none
  | _, _ =>
    combineTargets
      (mergeTargetCfg ((e.bind TargetsRec.github).getD [])
                      ((s.bind TargetsRec.github).getD []))
      (mergeTargetCfg ((e.bind TargetsRec.cloudflare).getD [])
                      ((s.bind TargetsRec.cloudflare).getD []))

/-- `mergeConfigs(existing, scanned)` from the setup command. -/
def mergeConfigs (existing scanned : ShipkeyConfig) : ShipkeyConfig :=
  let mp := mergeProviders (existing.providers.getD []) (scanned.providers.getD [])
  { project := existing.project
    vault := existing.vault
    backend := none
    providers := if mp = [] then none else some mp
    targets := mergeTargets existing.targets scanned.targets }

/-! ### Well-formedness of a persisted config

The conditions under which `mergeConfigs` behaves as a record merge: no
duplicate keys or duplicate array entries (JSON objects cannot carry
duplicate keys, and field lists are built by set union), optional string
fields absent rather than empty (they are spread through truthiness
checks), optional lists absent rather than empty, and no `backend` field
(the merge never copies it). -/

def wfProv (p : ProviderConfig) : Prop :=
  p.fields.Nodup ∧ p.guide_url ≠ some [] ∧ p.guide ≠ some [] ∧ p.permissions ≠ some []

def wfProvMap (m : ProvMap) : Prop :=
  (keysOf m).Nodup ∧ ∀ p ∈ m, wfProv p.2

def wfTargetVal : TargetValue → Prop
  | .arr a => a.Nodup
  | .obj _ => True

def wfTargetCfg (t : TargetConfig) : Prop :=
  t ≠ [] ∧ (keysOf t).Nodup ∧ ∀ p ∈ t, wfTargetVal p.2

/-- `optP P o` holds when the optional value, if present, satisfies `P`. -/
def optP (P : α → Prop) : Option α → Prop
  | none => True
  | some a => P a

instance {P : α → Prop} [DecidablePred P] : DecidablePred (optP P) := fun o =>
  match o with
  | none => isTrue trivial
  | some a => (inferInstance : Decidable (P a))

def wfTargets (t : TargetsRec) : Prop :=
  (t.github ≠ none ∨ t.cloudflare ≠ none) ∧
  optP wfTargetCfg t.github ∧ optP wfTargetCfg t.cloudflare

def wfConfig (c : ShipkeyConfig) : Prop :=
  c.backend = none ∧
  optP (fun m => m ≠ [] ∧ wfProvMap m) c.providers ∧
  optP wfTargets c.targets

instance : DecidablePred wfProv := fun p => by unfold wfProv; infer_instance
instance : DecidablePred wfProvMap := fun m => by unfold wfProvMap; infer_instance
instance : DecidablePred wfTargetVal := fun v => by
  unfold wfTargetVal; cases v <;> infer_instance
instance : DecidablePred wfTargetCfg := fun t => by unfold wfTargetCfg; infer_instance
instance : DecidablePred wfTargets := fun t => by unfold wfTargets; infer_instance
instance : DecidablePred wfConfig := fun c => by unfold wfConfig; infer_instance

/-! ## Library lemmas about the JS-idiom helpers -/

theorem mem_ddfAux [DecidableEq α] {a : α} {seen l : List α} :
    a ∈ ddfAux seen l ↔ a ∈ l ∧ a ∉ seen := by
  induction l generalizing seen with
  | nil => simp [ddfAux]
  | cons x xs ih =>
    simp only [ddfAux]
    split
    · rename_i hx
      rw [ih]
      simp only [List.mem_cons]
      constructor
      · rintro ⟨h1, h2⟩; exact ⟨Or.inr h1, h2⟩
      · rintro ⟨h1 | h1, h2⟩
        · exact absurd (h1 ▸ hx) h2
        · exact ⟨h1, h2⟩
    · rename_i hx
      simp only [List.mem_cons]
      constructor
      · rintro (rfl | h)
        · exact ⟨Or.inl rfl, hx⟩
        · rw [ih] at h
          obtain ⟨h1, h2⟩ := h
          simp only [List.mem_cons, not_or] at h2
          exact ⟨Or.inr h1, h2.2⟩
      · rintro ⟨rfl | h1, h2⟩
        · exact Or.inl rfl
        · by_cases hax : a = x
          · exact Or.inl hax
          · right; rw [ih]
            exact ⟨h1, by simp [hax, h2]⟩

theorem nodup_ddfAux [DecidableEq α] (seen l : List α) : (ddfAux seen l).Nodup := by
  induction l generalizing seen with
  | nil => simp [ddfAux]
  | cons x xs ih =>
    simp only [ddfAux]
    split
    · exact ih _
    · rw [List.nodup_cons]
      refine ⟨fun hmem => ?_, ih _⟩
      rw [mem_ddfAux] at hmem
      exact hmem.2 (List.mem_cons_self _ _)

theorem ddfAux_eq_self [DecidableEq α] {l seen : List α} (hn : l.Nodup)
    (hs : ∀ a ∈ l, a ∉ seen) : ddfAux seen l = l := by
  induction l generalizing seen with
  | nil => rfl
  | cons x xs ih =>
    rw [List.nodup_cons] at hn
    simp only [ddfAux]
    rw [if_neg (hs x (List.mem_cons_self _ _))]
    congr 1
    refine ih hn.2 fun a ha => ?_
    simp only [List.mem_cons, not_or]
    exact ⟨fun h => hn.1 (h ▸ ha), hs a (List.mem_cons_of_mem _ ha)⟩

theorem ddfAux_eq_nil [DecidableEq α] {l seen : List α} (h : ∀ a ∈ l, a ∈ seen) :
    ddfAux seen l = [] := by
  induction l generalizing seen with
  | nil => rfl
  | cons x xs ih =>
    simp only [ddfAux]
    rw [if_pos (h x (List.mem_cons_self _ _))]
    exact ih fun a ha => h a (List.mem_cons_of_mem _ ha)

theorem ddfAux_append [DecidableEq α] {l₁ l₂ seen : List α}
    (h : ∀ a ∈ l₂, a ∈ l₁ ∨ a ∈ seen) :
    ddfAux seen (l₁ ++ l₂) = ddfAux seen l₁ := by
  induction l₁ generalizing seen with
  | nil =>
    simp only [List.nil_append, ddfAux]
    exact ddfAux_eq_nil fun a ha => (h a ha).resolve_left (by simp)
  | cons x xs ih =>
    simp only [List.cons_append, ddfAux]
    split
    · rename_i hx
      refine ih fun a ha => ?_
      rcases h a ha with h1 | h1
      · rcases List.mem_cons.1 h1 with rfl | h2
        · exact Or.inr hx
        · exact Or.inl h2
      · exact Or.inr h1
    · congr 1
      refine ih fun a ha => ?_
      rcases h a ha with h1 | h1
      · rcases List.mem_cons.1 h1 with rfl | h2
        · exact Or.inr (List.mem_cons_self _ _)
        · exact Or.inl h2
      · exact Or.inr (List.mem_cons_of_mem _ h1)

theorem mem_ddf [DecidableEq α] {a : α} {l : List α} : a ∈ ddf l ↔ a ∈ l := by
  simp [ddf, mem_ddfAux]

theorem nodup_ddf [DecidableEq α] (l : List α) : (ddf l).Nodup := nodup_ddfAux [] l

theorem ddf_eq_self [DecidableEq α] {l : List α} (h : l.Nodup) : ddf l = l :=
  ddfAux_eq_self h (by simp)

theorem ddf_append [DecidableEq α] {l₁ l₂ : List α} (h : ∀ a ∈ l₂, a ∈ l₁) :
    ddf (l₁ ++ l₂) = ddf l₁ :=
  ddfAux_append fun a ha => Or.inl (h a ha)

theorem ddf_eq_nil_iff [DecidableEq α] {l : List α} : ddf l = [] ↔ l = [] := by
  cases l with
  | nil => simp [ddf, ddfAux]
  | cons x xs => simp [ddf, ddfAux]

theorem lookup_eq_none_iff {m : List (Str × β)} {k : Str} :
    lookup m k = none ↔ k ∉ keysOf m := by
  induction m with
  | nil => simp [lookup, keysOf]
  | cons p rest ih =>
    obtain ⟨k', v⟩ := p
    simp only [lookup, keysOf, List.map_cons, List.mem_cons]
    split
    · rename_i h
      subst h
      exact iff_of_false (fun hc => Option.noConfusion hc) (fun hn => hn (Or.inl rfl))
    · rename_i h
      rw [ih]
      simp only [keysOf]
      constructor
      · intro hn
        rintro (rfl | hm)
        · exact h rfl
        · exact hn hm
      · intro hn hm
        exact hn (Or.inr hm)

theorem lookup_mem {m : List (Str × β)} {k : Str} {v : β} (h : lookup m k = some v) :
    (k, v) ∈ m := by
  induction m with
  | nil => simp [lookup] at h
  | cons p rest ih =>
    obtain ⟨k', v'⟩ := p
    simp only [lookup] at h
    split at h
    · rename_i hk
      subst hk
      obtain rfl := Option.some.inj h
      exact List.mem_cons_self _ _
    · exact List.mem_cons_of_mem _ (ih h)

theorem lookup_of_mem_nodup {m : List (Str × β)} {k : Str} {v : β}
    (hn : (keysOf m).Nodup) (h : (k, v) ∈ m) : lookup m k = some v := by
  induction m with
  | nil => simp at h
  | cons p rest ih =>
    obtain ⟨k', v'⟩ := p
    simp only [keysOf, List.map_cons, List.nodup_cons] at hn
    rcases List.mem_cons.1 h with heq | hm
    · cases heq
      simp [lookup]
    · simp only [lookup]
      split
      · rename_i hk
        subst hk
        exact absurd (List.mem_map_of_mem Prod.fst hm) hn.1
      · exact ih hn.2 hm

theorem lookup_exists_of_mem_keys {m : List (Str × β)} {k : Str}
    (h : k ∈ keysOf m) : ∃ v, lookup m k = some v := by
  induction m with
  | nil => simp [keysOf] at h
  | cons p rest ih =>
    obtain ⟨k', v'⟩ := p
    simp only [lookup]
    split
    · exact ⟨v', rfl⟩
    · rename_i hk
      rcases List.mem_cons.1 h with heq | hm
      · exact absurd heq.symm hk
      · exact ih hm

theorem lookup_map_self {K : List Str} {k : Str} (hn : K.Nodup) (g : Str → β)
    (h : k ∈ K) : lookup (K.map fun n => (n, g n)) k = some (g k) := by
  induction K with
  | nil => simp at h
  | cons x xs ih =>
    rw [List.nodup_cons] at hn
    simp only [List.map_cons, lookup]
    split
    · rename_i hk; subst hk; rfl
    · rename_i hk
      rcases List.mem_cons.1 h with rfl | hm
      · exact absurd rfl hk
      · exact ih hn.2 hm

theorem map_entries_self {m : List (Str × β)} (g : Str → β)
    (h : ∀ p ∈ m, g p.1 = p.2) : ((keysOf m).map fun n => (n, g n)) = m := by
  induction m with
  | nil => rfl
  | cons p rest ih =>
    obtain ⟨k, v⟩ := p
    simp only [keysOf, List.map_cons]
    rw [h (k, v) (List.mem_cons_self _ _)]
    congr 1
    exact ih fun q hq => h q (List.mem_cons_of_mem _ hq)

theorem keysOf_map_entries (K : List Str) (g : Str → β) :
    keysOf (K.map fun n => (n, g n)) = K := by
  induction K with
  | nil => rfl
  | cons x xs ih => simp only [keysOf, List.map_cons] at ih ⊢; rw [ih]

theorem idxOf_eq_none_iff {c : Char} {l : Str} : idxOf c l = none ↔ c ∉ l := by
  induction l with
  | nil => simp [idxOf]
  | cons x xs ih =>
    simp only [idxOf, List.mem_cons]
    split
    · rename_i h; subst h; simp
    · rename_i h
      simp only [Option.map_eq_none', not_or]
      rw [ih]
      exact ⟨fun hn => ⟨fun he => h he.symm, hn⟩, fun hn => hn.2⟩

theorem idxOf_append_of_not_mem {c : Char} {l : Str} (r : Str) (h : c ∉ l) :
    idxOf c (l ++ r) = (idxOf c r).map (· + l.length) := by
  induction l with
  | nil => simp
  | cons x xs ih =>
    simp only [List.mem_cons, not_or] at h
    simp only [List.cons_append, idxOf, List.append_eq]
    rw [if_neg fun he => h.1 he.symm, ih h.2]
    cases idxOf c r
    · simp
    · simp only [Option.map_some', Option.some.injEq, List.length_cons]
      omega

theorem idxOf_lt_length {c : Char} {l : Str} {i : Nat} (h : idxOf c l = some i) :
    i < l.length := by
  induction l generalizing i with
  | nil => simp [idxOf] at h
  | cons x xs ih =>
    simp only [idxOf] at h
    split at h
    · obtain rfl := (Option.some.inj h).symm
      simp
    · cases hx : idxOf c xs with
      | none =>
        rw [hx] at h
        simp at h
      | some k =>
        rw [hx, Option.map_some'] at h
        obtain rfl := (Option.some.inj h).symm
        simpa using Nat.succ_lt_succ (ih hx)

theorem idxOf_append_of_mem {c : Char} {l₁ : Str} (l₂ : Str) (h : c ∈ l₁) :
    idxOf c (l₁ ++ l₂) = idxOf c l₁ := by
  induction l₁ with
  | nil => simp at h
  | cons x xs ih =>
    simp only [List.cons_append, idxOf, List.append_eq]
    by_cases hx : x = c
    · rw [if_pos hx, if_pos hx]
    · rw [if_neg hx, if_neg hx]
      rcases List.mem_cons.1 h with rfl | hm
      · exact absurd rfl hx
      · rw [ih hm]

theorem drop_append_len (l : List α) (c : α) (r : List α) :
    (l ++ c :: r).drop (l.length + 1) = r := by
  have h1 : l ++ c :: r = (l ++ [c]) ++ r := by simp
  have h2 : l.length + 1 = (l ++ [c]).length := by simp
  rw [h1, h2, List.drop_left]

theorem containsSub_cons (x : Char) (l n : Str) :
    containsSub (x :: l) n = (n.isPrefixOf (x :: l) || containsSub l n) := rfl

theorem containsSub_append_right {t n : Str} (s : Str) (h : containsSub t n = true) :
    containsSub (s ++ t) n = true := by
  induction s with
  | nil => exact h
  | cons x xs ih =>
    rw [List.cons_append, containsSub_cons, ih, Bool.or_true]

theorem mem_foldr_append {f : α → List β} {l : List α} {b : β} :
    b ∈ l.foldr (fun a acc => f a ++ acc) [] ↔ ∃ a ∈ l, b ∈ f a := by
  induction l with
  | nil => simp
  | cons x xs ih => simp [ih]

/-! ## Claim C1 / C8: the Store-B field-name codec -/

/-- A ref whose `env` contains `-`: encoding then decoding yields a
*wrong* triple, not `null`. -/
def refDashEnv : SecretRef :=
  { vault := str "shipkey", provider := str "OpenAI",
    project := str "p", env := str "a-b", field := str "F" }

/-- C1 counterexample: for the ref `{project:"p", env:"a-b", field:"F"}`
(whose `env` contains `-`), `parseFieldName(buildFieldName(ref))` is
neither the original triple nor the `null` signal — it decodes to the
wrong triple `{project:"p-a", env:"b", field:"F"}`. -/
theorem claim_C1_cex :
    parseFieldName (buildFieldName refDashEnv) ≠
      some ⟨refDashEnv.project, refDashEnv.env, refDashEnv.field⟩ ∧
    parseFieldName (buildFieldName refDashEnv) ≠ none ∧
    parseFieldName (buildFieldName refDashEnv) =
      some ⟨str "p-a", str "b", str "F"⟩ := by
  refine ⟨by decide, by decide, by decide⟩

/-- C1 (amended): for every ref whose `project` and `env` contain no `.`
(`field` may freely contain `-` and `.`), the Store-B field-name codec
round-trips — `parseFieldName (buildFieldName ref)` recovers exactly
`{project, env, field}` — precisely when `env` contains no `-`; when
`env` does contain `-`, decoding succeeds (it never returns the
"not decodable" `null` signal on such an encoded name) but yields a
triple different from `{project, env, field}`. -/
theorem claim_C1 (ref : SecretRef) (hp : '.' ∉ ref.project)
    (he : '.' ∉ ref.env) :
    ('-' ∉ ref.env →
       parseFieldName (buildFieldName ref) =
         some ⟨ref.project, ref.env, ref.field⟩) ∧
    ('-' ∈ ref.env →
       parseFieldName (buildFieldName ref) ≠ none ∧
       parseFieldName (buildFieldName ref) ≠
         some ⟨ref.project, ref.env, ref.field⟩) := by
  obtain ⟨v, pr, P, E, F⟩ := ref
  simp only at hp he
  have hdot : ('.' : Char) ∉ P ++ '-' :: E := by
    intro hm
    rcases List.mem_append.1 hm with h | h
    · exact hp h
    · rcases List.mem_cons.1 h with h | h
      · exact absurd h (by decide)
      · exact he h
  have h1 : idxOf '.' ((P ++ '-' :: E) ++ '.' :: F) = some (P ++ '-' :: E).length := by
    rw [idxOf_append_of_not_mem _ hdot]
    simp [idxOf]
  constructor
  · intro hd
    simp only at hd
    show parseFieldName ((P ++ '-' :: E) ++ '.' :: F) = some ⟨P, E, F⟩
    have h2 : lastIdxOf '-' (P ++ '-' :: E) = some P.length := by
      unfold lastIdxOf
      have hrev : (P ++ '-' :: E).reverse = E.reverse ++ '-' :: P.reverse := by
        simp
      rw [hrev]
      have hdr : ('-' : Char) ∉ E.reverse := by simpa using hd
      rw [idxOf_append_of_not_mem _ hdr]
      simp [idxOf]
    simp only [parseFieldName, h1, List.take_left, drop_append_len, h2]
  · intro hd
    simp only at hd
    have hdE : ('-' : Char) ∈ E.reverse := by simpa using hd
    have hne : idxOf '-' E.reverse ≠ none := fun hc => (idxOf_eq_none_iff.1 hc) hdE
    obtain ⟨i, hi⟩ := Option.ne_none_iff_exists'.1 hne
    have hilt : i < E.length := by
      have := idxOf_lt_length hi
      simpa using this
    have hlast : lastIdxOf '-' (P ++ '-' :: E) =
        some ((P ++ '-' :: E).length - 1 - i) := by
      unfold lastIdxOf
      have hrev : (P ++ '-' :: E).reverse = E.reverse ++ '-' :: P.reverse := by
        simp
      rw [hrev, idxOf_append_of_mem _ hdE, hi]
    have hlen : (P ++ '-' :: E).length = P.length + E.length + 1 := by
      simp only [List.length_append, List.length_cons]
      omega
    have hparse : parseFieldName ((P ++ '-' :: E) ++ '.' :: F) =
        some ⟨(P ++ '-' :: E).take ((P ++ '-' :: E).length - 1 - i),
              (P ++ '-' :: E).drop ((P ++ '-' :: E).length - 1 - i + 1), F⟩ := by
      simp only [parseFieldName, h1, List.take_left, drop_append_len, hlast]
    constructor
    · show parseFieldName ((P ++ '-' :: E) ++ '.' :: F) ≠ none
      rw [hparse]
      simp
    · show parseFieldName ((P ++ '-' :: E) ++ '.' :: F) ≠ some ⟨P, E, F⟩
      rw [hparse]
      intro hEq
      have h2 := Option.some.inj hEq
      rw [ParsedField.mk.injEq] at h2
      have h3 := congrArg List.length h2.1
      rw [List.length_take] at h3
      omega

/-- C1 witness: the round-trip at the concrete separator-free ref
`{project:"shipcast", env:"dev", field:"OPENROUTER_API_KEY"}`, and the
wrong-triple (non-null) decode at the dashed-env ref of the
counterexample. -/
theorem claim_C1_witness :
    parseFieldName (buildFieldName
      { vault := str "shipkey", provider := str "OpenAI",
        project := str "shipcast", env := str "dev",
        field := str "OPENROUTER_API_KEY" }) =
      some ⟨str "shipcast", str "dev", str "OPENROUTER_API_KEY"⟩ ∧
    parseFieldName (buildFieldName refDashEnv) ≠ none :=
  ⟨(claim_C1 _ (by decide) (by decide)).1 (by decide),
   ((claim_C1 refDashEnv (by decide) (by decide)).2 (by decide)).1⟩

/-- C8: `parseFieldName` is a total function (it can never raise) that
returns `null` whenever the `.` separator is absent, and whenever the
section before the first `.` contains no `-`; decoding `"invalid"` and
`"noDash.FIELD"` yields `null`, while `"shipcast-dev.OPENROUTER_API_KEY"`
decodes to `{project:"shipcast", env:"dev", field:"OPENROUTER_API_KEY"}`. -/
theorem claim_C8 :
    (∀ fn : Str, idxOf '.' fn = none → parseFieldName fn = none) ∧
    (∀ fn : Str, ∀ i, idxOf '.' fn = some i →
       lastIdxOf '-' (fn.take i) = none → parseFieldName fn = none) ∧
    parseFieldName (str "invalid") = none ∧
    parseFieldName (str "noDash.FIELD") = none ∧
    parseFieldName (str "shipcast-dev.OPENROUTER_API_KEY") =
      some ⟨str "shipcast", str "dev", str "OPENROUTER_API_KEY"⟩ := by
  refine ⟨?_, ?_, by decide, by decide, by decide⟩
  · intro fn h
    simp [parseFieldName, h]
  · intro fn i h1 h2
    simp [parseFieldName, h1, h2]

/-- C8 witness: the no-dot branch applied at the concrete name
`"nodothere"`. -/
theorem claim_C8_witness : parseFieldName (str "nodothere") = none :=
  claim_C8.1 (str "nodothere") (by decide)

/-! ## Claim C5: dotenv quote handling -/

/-- C5 counterexample: the dotenv line `K="` has the trimmed value `"` —
a single unmatched quote character — yet `parseDotenv` strips it to the
empty string instead of preserving it verbatim (the single character
passes both the `startsWith` and `endsWith` check). -/
theorem claim_C5_cex :
    parseDotenv (str "K=\"") ≠ [⟨str "K", str "\""⟩] ∧
    parseDotenv (str "K=\"") = [⟨str "K", []⟩] :=
  ⟨by decide, by decide⟩

/-- C5 (amended): every value `parseDotenv` emits is the quote-strip of
the trimmed text after the first `=` of its trimmed line; the strip
removes exactly one outer pair from a value wrapped in a matching pair of
`"…"` or `'…'` (the inner text is kept verbatim: no recursive unquoting,
no escape interpretation), and preserves every other value verbatim —
except that a value consisting of a single quote character (which starts
*and* ends with that quote) is stripped to the empty string rather than
preserved. -/
theorem claim_C5 :
    (∀ (q : Char) (inner : Str), q = '"' ∨ q = '\'' →
       stripQuotes (q :: (inner ++ [q])) = inner) ∧
    (∀ v : Str,
       ¬(v.head? = some '"' ∧ v.getLast? = some '"') →
       ¬(v.head? = some '\'' ∧ v.getLast? = some '\'') →
       stripQuotes v = v) ∧
    (∀ content : Str, ∀ e ∈ parseDotenv content,
       ∃ raw ∈ splitOnChar '\n' content, ∃ i,
         idxOf '=' (trim raw) = some i ∧
         e.key = trim ((trim raw).take i) ∧
         e.value = stripQuotes (trim ((trim raw).drop (i + 1)))) := by
  refine ⟨?_, ?_, ?_⟩
  · intro q inner hq
    have hlast : (q :: (inner ++ [q])).getLast? = some q := by
      rw [show q :: (inner ++ [q]) = (q :: inner) ++ [q] from rfl]
      exact List.getLast?_concat _
    have hhead : (q :: (inner ++ [q])).head? = some q := rfl
    unfold stripQuotes
    rcases hq with rfl | rfl
    · rw [if_pos (Or.inl ⟨hhead, hlast⟩)]
      simp
    · rw [if_pos (Or.inr ⟨hhead, hlast⟩)]
      simp
  · intro v h1 h2
    unfold stripQuotes
    rw [if_neg]
    rintro (h | h)
    · exact h1 h
    · exact h2 h
  · intro content e he
    simp only [parseDotenv, List.mem_filterMap] at he
    obtain ⟨raw, hraw, hp⟩ := he
    refine ⟨raw, hraw, ?_⟩
    simp only [parseLine] at hp
    split_ifs at hp
    cases hidx : idxOf '=' (trim raw) with
    | none => rw [hidx] at hp; exact absurd hp (by simp)
    | some i =>
      rw [hidx] at hp
      obtain rfl := (Option.some.inj hp).symm
      exact ⟨i, rfl, rfl, rfl⟩

/-- C5 witness: stripping the concrete wrapped value `"hello world"`. -/
theorem claim_C5_witness :
    stripQuotes ('"' :: (str "hello world" ++ ['"'])) = str "hello world" :=
  claim_C5.1 '"' (str "hello world") (Or.inl rfl)

/-! ## Claim C6: provider classification -/

theorem guessProviderAux_eq_find (rules : List ProviderDefinition) (key : Str) :
    guessProviderAux rules key =
      match rules.find? (fun p => p.patterns.any (patTest · key)) with
      | some p => p.name
      | none => str "General" := by
  induction rules with
  | nil => rfl
  | cons p ps ih =>
    simp only [guessProviderAux]
    cases h : p.patterns.any (patTest · key) with
    | true =>
      rw [if_pos rfl]
      have hf : List.find? (fun pr : ProviderDefinition =>
          pr.patterns.any (patTest · key)) (p :: ps) = some p := by
        simp [List.find?, h]
      rw [hf]
    | false =>
      rw [if_neg (by simp)]
      have hf : List.find? (fun pr : ProviderDefinition =>
          pr.patterns.any (patTest · key)) (p :: ps) =
          List.find? (fun pr : ProviderDefinition =>
            pr.patterns.any (patTest · key)) ps := by
        simp [List.find?, h]
      rw [hf, ih]

/-- C6: `guessProvider` returns the name of the *first* rule of the
ordered `PROVIDERS` table whose pattern set matches the key
case-insensitively, and the generic fallback `"General"` when none
matches; `"STRIPE_SECRET_KEY"` classifies as `"Stripe"`, `"FOO_BAR"`
falls back to `"General"`, and `"GITHUB_DATABASE_URL"` — matched by both
the GitHub and the Database rules — resolves to the earlier-listed
`"GitHub OAuth"` only. -/
theorem claim_C6 :
    (∀ key : Str, guessProvider key =
       match PROVIDERS.find? (fun p => p.patterns.any (patTest · key)) with
       | some p => p.name
       | none => str "General") ∧
    guessProvider (str "STRIPE_SECRET_KEY") = str "Stripe" ∧
    guessProvider (str "FOO_BAR") = str "General" ∧
    guessProvider (str "GITHUB_DATABASE_URL") = str "GitHub OAuth" :=
  ⟨fun key => guessProviderAux_eq_find PROVIDERS key, by decide, by decide, by decide⟩

/-! ## Claim C9: the three-state availability probe -/

/-- C9: both backends' `checkStatus` return `not_installed` exactly when
the store CLI is absent; `not_logged_in` when the CLI is present but its
status probe fails, reports `unauthenticated`/`locked` (Bitwarden) or
yields no account array / an empty one (1Password); `ready` otherwise;
and for both, `isAvailable()` holds iff `checkStatus()` is `ready`. -/
theorem claim_C9 :
    (∀ w : BwCli,
       (w.installed = false → bwCheckStatus w = .not_installed) ∧
       (w.installed = true → ∀ e, w.statusField = .error e →
          bwCheckStatus w = .not_logged_in) ∧
       (w.installed = true → w.statusField = .ok (str "unauthenticated") →
          bwCheckStatus w = .not_logged_in) ∧
       (w.installed = true → w.statusField = .ok (str "locked") →
          bwCheckStatus w = .not_logged_in) ∧
       (w.installed = true → ∀ s, w.statusField = .ok s →
          s ≠ str "unauthenticated" → s ≠ str "locked" →
          bwCheckStatus w = .ready) ∧
       (bwIsAvailable w = true ↔ bwCheckStatus w = .ready)) ∧
    (∀ w : OpCli,
       (w.installed = false → opCheckStatus w = .not_installed) ∧
       (w.installed = true → ∀ e, w.accounts = .error e →
          opCheckStatus w = .not_logged_in) ∧
       (w.installed = true → w.accounts = .ok none →
          opCheckStatus w = .not_logged_in) ∧
       (w.installed = true → w.accounts = .ok (some []) →
          opCheckStatus w = .not_logged_in) ∧
       (w.installed = true → ∀ l, w.accounts = .ok (some l) → l ≠ [] →
          opCheckStatus w = .ready) ∧
       (opIsAvailable w = true ↔ opCheckStatus w = .ready)) := by
  constructor
  · intro w
    refine ⟨?_, ?_, ?_, ?_, ?_, ?_⟩
    · intro h; simp [bwCheckStatus, h]
    · intro h e hs; simp [bwCheckStatus, h, hs]
    · intro h hs; simp [bwCheckStatus, h, hs]
    · intro h hs; simp [bwCheckStatus, h, hs]
    · intro h s hs h1 h2; simp [bwCheckStatus, h, hs, h1, h2]
    · simp [bwIsAvailable]
  · intro w
    refine ⟨?_, ?_, ?_, ?_, ?_, ?_⟩
    · intro h; simp [opCheckStatus, h]
    · intro h e hs; simp [opCheckStatus, h, hs]
    · intro h hs; simp [opCheckStatus, h, hs]
    · intro h hs; simp [opCheckStatus, h, hs]
    · intro h l hs hl; simp [opCheckStatus, h, hs, hl]
    · simp [opIsAvailable]

/-- C9 witness: concrete worlds — `bw` absent is `not_installed`; `op`
present with one account is `ready`. -/
theorem claim_C9_witness :
    bwCheckStatus ⟨false, .ok (str "unlocked")⟩ = .not_installed ∧
    opCheckStatus ⟨true, .ok (some [str "acct"])⟩ = .ready :=
  ⟨(claim_C9.1 ⟨false, .ok (str "unlocked")⟩).1 rfl,
   (claim_C9.2 ⟨true, .ok (some [str "acct"])⟩).2.2.2.2.1 rfl [str "acct"] rfl
     (by decide)⟩

/-! ## Claims C3 / C10: the file scanner -/

/-- The filename component of a relative path (after the last `/`). -/
def baseName (p : Str) : Str :=
  match lastIdxOf '/' p with
  | none => p
  | some i => p.drop (i + 1)

theorem containsSub_of_baseName {p needle : Str}
    (h : containsSub (baseName p) needle = true) : containsSub p needle = true := by
  unfold baseName at h
  cases hidx : lastIdxOf '/' p with
  | none => rwa [hidx] at h
  | some i =>
    rw [hidx] at h
    calc containsSub p needle
        = containsSub (p.take (i + 1) ++ p.drop (i + 1)) needle := by
          rw [List.take_append_drop]
      _ = true := containsSub_append_right _ h

theorem mkScannedFile_vars {p c : Str} (h : isTemplatePath p = true) :
    ∀ v ∈ (mkScannedFile p c).vars, v.value = none ∧ v.isTemplate = true := by
  intro v hv
  simp only [mkScannedFile, List.mem_map] at hv
  obtain ⟨pv, _, rfl⟩ := hv
  simp [h]

/-- The per-file property `P` is preserved by one `addToGroup` step. -/
theorem addToGroup_forall {P : ScannedFile → Prop}
    {m : List (Str × List ScannedFile)} {k : Str} {f : ScannedFile}
    (hm : ∀ g ∈ m, ∀ f' ∈ g.2, P f') (hf : P f) :
    ∀ g ∈ addToGroup m k f, ∀ f' ∈ g.2, P f' := by
  induction m with
  | nil =>
    intro g hg f' hf'
    simp only [addToGroup, List.mem_singleton] at hg
    subst hg
    simp only [List.mem_singleton] at hf'
    exact hf' ▸ hf
  | cons p rest ih =>
    obtain ⟨k', fs⟩ := p
    intro g hg f' hf'
    simp only [addToGroup] at hg
    split at hg
    · rcases List.mem_cons.1 hg with rfl | hgr
      · rcases List.mem_append.1 hf' with hin | hin
        · exact hm (k', fs) (List.mem_cons_self _ _) f' hin
        · rw [List.mem_singleton.1 hin]
          exact hf
      · exact hm g (List.mem_cons_of_mem _ hgr) f' hf'
    · rcases List.mem_cons.1 hg with rfl | hgr
      · exact hm (k', fs) (List.mem_cons_self _ _) f' hf'
      · exact ih (fun g' hg' => hm g' (List.mem_cons_of_mem _ hg')) g hgr f' hf'

/-- The per-file property `P` holds of every file in the group map built
by the scan fold, provided it holds of every `mkScannedFile`. -/
theorem foldl_groups_forall {P : ScannedFile → Prop} :
    ∀ (files : List (Str × Str)) (m : List (Str × List ScannedFile)),
      (∀ g ∈ m, ∀ f' ∈ g.2, P f') →
      (∀ pc ∈ files, P (mkScannedFile pc.1 pc.2)) →
      ∀ g ∈ files.foldl
          (fun m pc => addToGroup m (dirname pc.1) (mkScannedFile pc.1 pc.2)) m,
        ∀ f' ∈ g.2, P f' := by
  intro files
  induction files with
  | nil => intro m hm _; exact hm
  | cons pc rest ih =>
    intro m hm hfiles
    simp only [List.foldl_cons]
    exact ih _
      (addToGroup_forall hm (hfiles pc (List.mem_cons_self _ _)))
      (fun q hq => hfiles q (List.mem_cons_of_mem _ hq))

/-- C3: for every file tree and every scanned file whose *filename*
signals a template (it contains `".example"` or `".template"`), every
`EnvVar` the scan produces for that file has an absent value and
`isTemplate = true`, whatever values the file's text contains. -/
theorem claim_C3 (fuel : Nat) (root : List FSEntry) :
    ∀ g ∈ (scan fuel root).groups, ∀ f ∈ g.files,
      (containsSub (baseName f.path) (str ".example") = true ∨
       containsSub (baseName f.path) (str ".template") = true) →
      ∀ v ∈ f.vars, v.value = none ∧ v.isTemplate = true := by
  intro g hg f hf htrig
  have hbase :
      ∀ f' : ScannedFile,
        (containsSub (baseName f'.path) (str ".example") = true ∨
         containsSub (baseName f'.path) (str ".template") = true) →
        isTemplatePath f'.path = true := by
    intro f' h
    unfold isTemplatePath
    rcases h with h | h
    · rw [containsSub_of_baseName h, Bool.true_or]
    · rw [containsSub_of_baseName h, Bool.or_true]
  have hP : ∀ g' ∈ (scan fuel root).groups, ∀ f' ∈ g'.files,
      isTemplatePath f'.path = true →
      ∀ v ∈ f'.vars, v.value = none ∧ v.isTemplate = true := by
    intro g' hg' f' hf'
    simp only [scan, List.mem_map] at hg'
    obtain ⟨pf, hpf, rfl⟩ := hg'
    have := foldl_groups_forall
      (P := fun f₀ => isTemplatePath f₀.path = true →
        ∀ v ∈ f₀.vars, v.value = none ∧ v.isTemplate = true)
      (walkEntries fuel [] root) []
      (by intro g hgm; simp at hgm)
      (by
        intro pc _ htv
        have hpath : (mkScannedFile pc.1 pc.2).path = pc.1 := rfl
        exact mkScannedFile_vars (hpath ▸ htv))
      pf hpf
    exact this f' hf'
  exact hP g hg f hf (hbase f htrig)

/-- A one-file tree exercising the template rule. -/
def demoTemplateTree : List FSEntry := [.file (str ".env.example") (str "A=1")]

def demoTemplateFile : ScannedFile := mkScannedFile (str ".env.example") (str "A=1")

def demoTemplateGroup : SubProjectGroup := ⟨str ".", [demoTemplateFile]⟩

/-- C3 witness: scanning `.env.example` containing `A=1` yields a var with
no value and the template flag set, via `claim_C3` at the concrete tree. -/
theorem claim_C3_witness :
    (⟨str "A", none, str ".env.example", true⟩ : EnvVar).value = none ∧
    (⟨str "A", none, str ".env.example", true⟩ : EnvVar).isTemplate = true :=
  claim_C3 1 demoTemplateTree demoTemplateGroup (by decide) demoTemplateFile
    (by decide) (Or.inl (by decide)) _ (by decide)

/-- The scenario tree of the scan test: `.env` and `.env.example` at the
root, `apps/api/.dev.vars.example`, and a `node_modules/pkg/.env` that
must be excluded. -/
def scenarioTree : List FSEntry :=
  [ .file (str ".env.example") (str "DATABASE_URL=\nAPI_KEY=\nSECRET="),
    .file (str ".env")
      (str "DATABASE_URL=postgres://localhost\nAPI_KEY=sk-123\nSECRET=mysecret"),
    .dir (str "apps")
      [ .dir (str "api")
          [ .file (str ".dev.vars.example") (str "STRIPE_KEY=\nWEBHOOK_SECRET=") ] ],
    .dir (str "node_modules")
      [ .dir (str "pkg") [ .file (str ".env") (str "IGNORED=true") ] ] ]

/-- C10: scanning the scenario tree finds 3 files and 8 variables, in
exactly two groups — the root sentinel `"."` with 2 files and
`"apps/api"` with 1 file — and no discovered path touches
`node_modules`. -/
theorem claim_C10 :
    (scan 10 scenarioTree).totalFiles = 3 ∧
    (scan 10 scenarioTree).totalVars = 8 ∧
    ((scan 10 scenarioTree).groups.map SubProjectGroup.path) =
      [str ".", str "apps/api"] ∧
    ((scan 10 scenarioTree).groups.map fun g => g.files.length) = [2, 1] ∧
    ((scan 10 scenarioTree).groups.all fun g =>
      g.files.all fun f => !containsSub f.path (str "node_modules")) = true := by
  refine ⟨by decide, by decide, by decide, by decide, by decide⟩

/-! ## Claim C7: backend `list` filtering and missing-container behaviour -/

/-- An unlocked Bitwarden store seeded with
`(OpenAI, myapp, dev, OPENAI_API_KEY)`, `(OpenAI, myapp, prod,
OPENAI_API_KEY)` and `(Stripe, other, dev, STRIPE_KEY)` in the
`"shipkey"` folder. -/
def seededBwStore : BwStore :=
  { status := str "unlocked",
    folders := [⟨str "folder1", str "shipkey"⟩],
    items :=
      [ { id := str "i1", name := str "OpenAI", folderId := some (str "folder1"),
          fields := some [⟨str "myapp-dev.OPENAI_API_KEY", str "sk-123"⟩,
                          ⟨str "myapp-prod.OPENAI_API_KEY", str "sk-456"⟩] },
        { id := str "i2", name := str "Stripe", folderId := some (str "folder1"),
          fields := some [⟨str "other-dev.STRIPE_KEY", str "sk_test"⟩] } ] }

/-- The same three entries seeded in a 1Password vault `"shipkey"`. -/
def seededOpStore : OpStore :=
  { vaults :=
      [ (str "shipkey",
         [ { title := str "OpenAI", id := str "i1",
             fields := some [⟨some (str "myapp-dev"), str "OPENAI_API_KEY"⟩,
                             ⟨some (str "myapp-prod"), str "OPENAI_API_KEY"⟩] },
           { title := str "Stripe", id := str "i2",
             fields := some [⟨some (str "other-dev"), str "STRIPE_KEY"⟩] } ]) ] }

/-- A 1Password world with no vaults at all. -/
def emptyOpStore : OpStore := ⟨[]⟩

/-- Every ref the Bitwarden per-item decode emits satisfies the filters. -/
theorem mem_bwItemRefs {vault p e : Str} {item : BwItem} {r : SecretRef}
    (hp : p ≠ []) (he : e ≠ [])
    (hr : r ∈ bwItemRefs vault (some p) (some e) item) :
    r.project = p ∧ r.env = e := by
  unfold bwItemRefs at hr
  split at hr
  · simp at hr
  · rw [List.mem_filterMap] at hr
    obtain ⟨fld, _, hfld⟩ := hr
    split at hfld
    · exact absurd hfld (by simp)
    · split_ifs at hfld with hpass
      obtain rfl := (Option.some.inj hfld).symm
      have h1 := hpass.1
      have h2 := hpass.2
      simp only [passFilter] at h1 h2
      rw [if_neg hp] at h1
      rw [if_neg he] at h2
      exact ⟨of_decide_eq_true h1, of_decide_eq_true h2⟩

/-- Every ref the 1Password per-item decode emits satisfies the filters. -/
theorem mem_opItemRefs {vault p e : Str} {item : OpItem} {r : SecretRef}
    (hp : p ≠ []) (he : e ≠ [])
    (hr : r ∈ opItemRefs vault (some p) (some e) item) :
    r.project = p ∧ r.env = e := by
  unfold opItemRefs at hr
  split at hr
  · simp at hr
  · rw [List.mem_filterMap] at hr
    obtain ⟨fld, _, hfld⟩ := hr
    split at hfld
    · exact absurd hfld (by simp)
    next sect heq =>
      by_cases hsect : sect = []
      · rw [if_pos hsect] at hfld
        exact absurd hfld (by simp)
      · rw [if_neg hsect] at hfld
        split at hfld
        · exact absurd hfld (by simp)
        · split_ifs at hfld with hpass
          obtain rfl := (Option.some.inj hfld).symm
          have h1 := hpass.1
          have h2 := hpass.2
          simp only [passFilter] at h1 h2
          rw [if_neg hp] at h1
          rw [if_neg he] at h2
          exact ⟨of_decide_eq_true h1, of_decide_eq_true h2⟩

/-- C7 counterexample: the claim's "never an error when the target
vault/folder does not exist" fails for the 1Password backend — `op item
list --vault shipkey` rejects when the vault is absent, so `list`
propagates an error instead of returning an empty sequence. -/
theorem claim_C7_cex :
    opList emptyOpStore none none (str "shipkey") =
      .error (str "op command failed: vault not found") := by
  decide

/-- C7 (amended): every ref either backend's `list` returns satisfies the
requested project/env filters; the Bitwarden backend returns an empty
sequence (not an error) when the folder is absent; filtering the three
seeded entries by `project="myapp", env="dev"` yields exactly one ref,
with field `OPENAI_API_KEY`, on both backends — but the 1Password
backend's `list` fails (rather than returning empty) when the target
vault does not exist. -/
theorem claim_C7 :
    (∀ (st : BwStore) (p e : Str) (vault : Str) (refs : List SecretRef),
       bwList st (some p) (some e) vault = .ok refs → p ≠ [] → e ≠ [] →
       ∀ r ∈ refs, r.project = p ∧ r.env = e) ∧
    (∀ (st : OpStore) (p e : Str) (vault : Str) (refs : List SecretRef),
       opList st (some p) (some e) vault = .ok refs → p ≠ [] → e ≠ [] →
       ∀ r ∈ refs, r.project = p ∧ r.env = e) ∧
    (∀ (st : BwStore) (project env : Option Str) (vault : Str),
       st.status ≠ str "locked" → st.status ≠ str "unauthenticated" →
       (∀ f ∈ st.folders, f.name ≠ vault) →
       bwList st project env vault = .ok []) ∧
    bwList seededBwStore (some (str "myapp")) (some (str "dev")) (str "shipkey") =
      .ok [{ vault := str "shipkey", provider := str "OpenAI",
             project := str "myapp", env := str "dev",
             field := str "OPENAI_API_KEY" }] ∧
    opList seededOpStore (some (str "myapp")) (some (str "dev")) (str "shipkey") =
      .ok [{ vault := str "shipkey", provider := str "OpenAI",
             project := str "myapp", env := str "dev",
             field := str "OPENAI_API_KEY" }] := by
  refine ⟨?_, ?_, ?_, by decide, by decide⟩
  · intro st p e vault refs hok hp he r hr
    unfold bwList at hok
    split_ifs at hok
    split at hok
    · obtain rfl := (Except.ok.inj hok).symm
      simp at hr
    · obtain rfl := (Except.ok.inj hok).symm
      rw [mem_foldr_append] at hr
      obtain ⟨item, _, hrin⟩ := hr
      exact mem_bwItemRefs hp he hrin
  · intro st p e vault refs hok hp he r hr
    unfold opList at hok
    split at hok
    · exact absurd hok (by simp)
    · obtain rfl := (Except.ok.inj hok).symm
      rw [mem_foldr_append] at hr
      obtain ⟨item, _, hrin⟩ := hr
      exact mem_opItemRefs hp he hrin
  · intro st project env vault h1 h2 hmiss
    unfold bwList
    rw [if_neg (by simpa using h1), if_neg (by simpa using h2)]
    have hfind : st.folders.find? (fun f => f.name = vault) = none := by
      rw [List.find?_eq_none]
      intro f hf
      simpa using hmiss f hf
    rw [hfind]

/-- C7 witness: the filter-soundness part applied to the concrete seeded
Bitwarden store. -/
theorem claim_C7_witness :
    ({ vault := str "shipkey", provider := str "OpenAI",
       project := str "myapp", env := str "dev",
       field := str "OPENAI_API_KEY" } : SecretRef).project = str "myapp" ∧
    ({ vault := str "shipkey", provider := str "OpenAI",
       project := str "myapp", env := str "dev",
       field := str "OPENAI_API_KEY" } : SecretRef).env = str "dev" :=
  claim_C7.1 seededBwStore (str "myapp") (str "dev") (str "shipkey")
    [{ vault := str "shipkey", provider := str "OpenAI",
       project := str "myapp", env := str "dev",
       field := str "OPENAI_API_KEY" }]
    (by decide) (by decide) (by decide) _ (by decide)

/-! ## Claims C2 / C4: the config merge

The merge laws of `mergeConfigs`, proved under the well-formedness
conditions of `wfConfig`. -/

theorem truthy_eq_self {o : Option Str} (h : o ≠ some []) : truthy o = o := by
  cases o with
  | none => rfl
  | some s =>
    show (if s = [] then none else some s) = some s
    rw [if_neg fun hc => h (by rw [hc])]

theorem truthy_idem (o : Option Str) : truthy (truthy o) = truthy o := by
  cases o with
  | none => rfl
  | some s =>
    show truthy (if s = [] then none else some s) = if s = [] then none else some s
    split_ifs with hs
    · rfl
    · show (if s = [] then none else some s) = some s
      rw [if_neg hs]

theorem nonemptyOpt_eq_self {o : Option (List PermissionHint)} (h : o ≠ some []) :
    nonemptyOpt o = o := by
  cases o with
  | none => rfl
  | some l =>
    show (if l = [] then none else some l) = some l
    rw [if_neg fun hc => h (by rw [hc])]

/-- Merging a well-formed provider entry with itself is the identity. -/
theorem mergeProvEntry_self {p : ProviderConfig} (h : wfProv p) :
    mergeProvEntry p p = p := by
  obtain ⟨hf, hgu, hg, hperm⟩ := h
  unfold mergeProvEntry
  rw [ddf_append fun a ha => ha, ddf_eq_self hf,
    truthy_eq_self hgu, truthy_eq_self hg, nonemptyOpt_eq_self hperm]

/-- Re-merging an already-merged provider entry with the same scanned
entry changes nothing. -/
theorem mergeProvEntry_absorb (ep sp : ProviderConfig) :
    mergeProvEntry (mergeProvEntry ep sp) sp = mergeProvEntry ep sp := by
  unfold mergeProvEntry
  simp only
  rw [ddf_append fun a ha => mem_ddf.2 (List.mem_append_right _ ha),
    ddf_eq_self (nodup_ddf _), truthy_idem, truthy_idem]

/-- Merging a well-formed provider map with itself is the identity. -/
theorem mergeProviders_self {m : ProvMap} (h : wfProvMap m) :
    mergeProviders m m = m := by
  obtain ⟨hk, hv⟩ := h
  unfold mergeProviders
  rw [ddf_append fun a ha => ha, ddf_eq_self hk]
  apply map_entries_self
  intro p hp
  rw [lookup_of_mem_nodup hk hp]
  exact mergeProvEntry_self (hv p hp)

/-- Re-merging the merged provider map with the same scanned map changes
nothing, provided the scanned map's entries are well-formed. -/
theorem mergeProviders_absorb {eP sP : ProvMap}
    (hs : ∀ q ∈ sP, wfProv q.2) :
    mergeProviders (mergeProviders eP sP) sP = mergeProviders eP sP := by
  have hkeys : keysOf (mergeProviders eP sP) = ddf (keysOf eP ++ keysOf sP) := by
    unfold mergeProviders
    exact keysOf_map_entries _ _
  have hnodup : (keysOf (mergeProviders eP sP)).Nodup := by
    rw [hkeys]; exact nodup_ddf _
  have hsub : ∀ a ∈ keysOf sP, a ∈ keysOf (mergeProviders eP sP) := by
    intro a ha
    rw [hkeys, mem_ddf]
    exact List.mem_append_right _ ha
  conv_lhs => rw [mergeProviders]
  rw [ddf_append hsub, ddf_eq_self hnodup]
  apply map_entries_self
  intro q hq
  rw [mergeProviders, List.mem_map] at hq
  obtain ⟨n, hn, rfl⟩ := hq
  have hlM : lookup (mergeProviders eP sP) n =
      some (match lookup eP n, lookup sP n with
            | some ep, some sp => mergeProvEntry ep sp
            | some ep, none => ep
            | none, some sp => sp
            | none, none => { fields := [] }) := by
    rw [mergeProviders]
    exact lookup_map_self (nodup_ddf _) _ hn
  rw [hlM]
  cases hsP : lookup sP n with
  | none => rfl
  | some sp =>
    cases heP : lookup eP n with
    | some ep => exact mergeProvEntry_absorb ep sp
    | none => exact mergeProvEntry_self (hs (n, sp) (lookup_mem hsP))

theorem mergeDest_none_right (v : TargetValue) : mergeDest (some v) none = v := by
  cases v <;> rfl

/-- Merging a well-formed destination value with itself is the identity. -/
theorem mergeDest_self {v : TargetValue} (h : wfTargetVal v) :
    mergeDest (some v) (some v) = v := by
  cases v with
  | obj o => rfl
  | arr a =>
    show TargetValue.arr (ddf (a ++ a)) = .arr a
    rw [ddf_append fun x hx => hx, ddf_eq_self h]

theorem keysOf_eq_nil_iff {m : List (Str × β)} : keysOf m = [] ↔ m = [] := by
  cases m <;> simp [keysOf]

/-- Merging a well-formed target config with itself returns it intact. -/
theorem mergeTargetCfg_self {t : TargetConfig} (h : wfTargetCfg t) :
    mergeTargetCfg t t = some t := by
  obtain ⟨hne, hk, hv⟩ := h
  unfold mergeTargetCfg
  rw [ddf_append fun a ha => ha, ddf_eq_self hk,
    if_neg fun hc => hne (keysOf_eq_nil_iff.1 hc)]
  congr 1
  apply map_entries_self
  intro p hp
  rw [lookup_of_mem_nodup hk hp]
  exact mergeDest_self (hv p hp)

/-- `mergeTargetCfg` cannot drop a platform whose scanned side has
destinations. -/
theorem mergeTargetCfg_ne_none_right {eT sT : TargetConfig} (h : sT ≠ []) :
    mergeTargetCfg eT sT ≠ none := by
  unfold mergeTargetCfg
  split_ifs with hd
  · rw [ddf_eq_nil_iff, List.append_eq_nil] at hd
    exact absurd (keysOf_eq_nil_iff.1 hd.2) h
  · simp

/-- Re-merging the merged destinations of one platform with the same
scanned side changes nothing (scanned arrays must be duplicate-free). -/
theorem mergeTargetCfg_absorb {eT sT : TargetConfig}
    (hs : ∀ p ∈ sT, wfTargetVal p.2) :
    mergeTargetCfg ((mergeTargetCfg eT sT).getD []) sT = mergeTargetCfg eT sT := by
  cases hm : mergeTargetCfg eT sT with
  | none =>
    unfold mergeTargetCfg at hm
    split_ifs at hm with hd
    rw [ddf_eq_nil_iff, List.append_eq_nil] at hd
    have hsT : sT = [] := keysOf_eq_nil_iff.1 hd.2
    subst hsT
    rfl
  | some cfg =>
    unfold mergeTargetCfg at hm
    split_ifs at hm with hd
    obtain rfl := Option.some.inj hm
    have hnodup : (ddf (keysOf eT ++ keysOf sT)).Nodup := nodup_ddf _
    unfold mergeTargetCfg
    rw [Option.getD_some, keysOf_map_entries, ddf_append
      (fun a ha => mem_ddf.2 (List.mem_append_right _ ha)),
      ddf_eq_self hnodup, if_neg hd]
    congr 1
    apply List.map_congr_left
    intro d hd'
    rw [Prod.mk.injEq]
    refine ⟨rfl, ?_⟩
    rw [lookup_map_self hnodup _ hd']
    cases hsd : lookup sT d with
    | none => exact mergeDest_none_right _
    | some sv =>
      have hsv : wfTargetVal sv := hs (d, sv) (lookup_mem hsd)
      cases heT : lookup eT d with
      | none =>
        show mergeDest (some sv) (some sv) = sv
        exact mergeDest_self hsv
      | some ev =>
        cases ev with
        | obj o => rfl
        | arr a =>
          cases sv with
          | obj so => rfl
          | arr b =>
            show TargetValue.arr (ddf (ddf (a ++ b) ++ b)) = .arr (ddf (a ++ b))
            rw [ddf_append fun x hx => mem_ddf.2 (List.mem_append_right _ hx),
              ddf_eq_self (nodup_ddf _)]

theorem combineTargets_eq_some {g c : Option TargetConfig} {m : TargetsRec}
    (h : combineTargets g c = some m) : m = ⟨g, c⟩ := by
  cases g with
  | some g' => exact (Option.some.inj h).symm
  | none =>
    cases c with
    | none => exact Option.noConfusion h
    | some c' => exact (Option.some.inj h).symm

theorem combineTargets_eq_none {g c : Option TargetConfig}
    (h : combineTargets g c = none) : g = none ∧ c = none := by
  cases g with
  | some g' => exact Option.noConfusion h
  | none =>
    cases c with
    | some c' => exact Option.noConfusion h
    | none => exact ⟨rfl, rfl⟩

/-- Merging a well-formed targets record with itself returns it intact. -/
theorem mergeTargets_self {t : TargetsRec} (h : wfTargets t) :
    mergeTargets (some t) (some t) = some t := by
  obtain ⟨tg, tc⟩ := t
  obtain ⟨hpres, hg, hc⟩ := h
  have hG : mergeTargetCfg (tg.getD []) (tg.getD []) = tg := by
    cases htg : tg with
    | none => rfl
    | some cfg =>
      rw [htg] at hg
      exact mergeTargetCfg_self hg
  have hC : mergeTargetCfg (tc.getD []) (tc.getD []) = tc := by
    cases htc : tc with
    | none => rfl
    | some cfg =>
      rw [htc] at hc
      exact mergeTargetCfg_self hc
  show combineTargets (mergeTargetCfg (tg.getD []) (tg.getD []))
    (mergeTargetCfg (tc.getD []) (tc.getD [])) = some ⟨tg, tc⟩
  rw [hG, hC]
  cases htg : tg with
  | some cfg => rfl
  | none =>
    cases htc : tc with
    | some cfg => rfl
    | none =>
      rw [htg, htc] at hpres
      rcases hpres with hp | hp <;> exact absurd rfl hp

/-- Re-merging the merged targets with the same scanned targets changes
nothing, provided the scanned targets are well-formed when present. -/
theorem mergeTargets_absorb {A B : Option TargetsRec}
    (hB : optP wfTargets B) :
    mergeTargets (mergeTargets A B) B = mergeTargets A B := by
  have hsg : ∀ p ∈ ((B.bind TargetsRec.github).getD [] : TargetConfig),
      wfTargetVal p.2 := by
    cases B with
    | none => intro p hp; simp at hp
    | some t =>
      cases htg : t.github with
      | none =>
        intro p hp
        have hbind : ((some t).bind TargetsRec.github).getD ([] : TargetConfig) = [] := by
          show (t.github).getD [] = []
          rw [htg]
          rfl
        rw [hbind] at hp
        simp at hp
      | some cfg =>
        intro p hp
        have hw : wfTargetCfg cfg := by
          have h2 := hB.2.1
          rw [htg] at h2
          exact h2
        have hbind : ((some t).bind TargetsRec.github).getD ([] : TargetConfig) = cfg := by
          show (t.github).getD [] = cfg
          rw [htg]
          rfl
        rw [hbind] at hp
        exact hw.2.2 p hp
  have hsc : ∀ p ∈ ((B.bind TargetsRec.cloudflare).getD [] : TargetConfig),
      wfTargetVal p.2 := by
    cases B with
    | none => intro p hp; simp at hp
    | some t =>
      cases htc : t.cloudflare with
      | none =>
        intro p hp
        have hbind : ((some t).bind TargetsRec.cloudflare).getD ([] : TargetConfig) = [] := by
          show (t.cloudflare).getD [] = []
          rw [htc]
          rfl
        rw [hbind] at hp
        simp at hp
      | some cfg =>
        intro p hp
        have hw : wfTargetCfg cfg := by
          have h2 := hB.2.2
          rw [htc] at h2
          exact h2
        have hbind : ((some t).bind TargetsRec.cloudflare).getD ([] : TargetConfig) = cfg := by
          show (t.cloudflare).getD [] = cfg
          rw [htc]
          rfl
        rw [hbind] at hp
        exact hw.2.2 p hp
  cases hM : mergeTargets A B with
  | none =>
    -- both platform merges came out empty; under `wfTargets` this forces
    -- `B = none`, and the left side is `mergeTargets none none`.
    cases B with
    | none =>
      cases A with
      | none => rfl
      | some a => rfl
    | some t =>
      exfalso
      have hcomb : combineTargets
          (mergeTargetCfg ((A.bind TargetsRec.github).getD [])
            (((some t).bind TargetsRec.github).getD []))
          (mergeTargetCfg ((A.bind TargetsRec.cloudflare).getD [])
            (((some t).bind TargetsRec.cloudflare).getD [])) = none := by
        cases A with
        | none => exact hM
        | some a => exact hM
      obtain ⟨hgn, hcn⟩ := combineTargets_eq_none hcomb
      rcases hB.1 with hp | hp
      · cases htg : t.github with
        | none => exact hp htg
        | some cfg =>
          have hw := hB.2.1
          rw [htg] at hw
          have hbind : ((some t).bind TargetsRec.github).getD ([] : TargetConfig) = cfg := by
            show (t.github).getD [] = cfg
            rw [htg]
            rfl
          rw [hbind] at hgn
          exact mergeTargetCfg_ne_none_right hw.1 hgn
      · cases htc : t.cloudflare with
        | none => exact hp htc
        | some cfg =>
          have hw := hB.2.2
          rw [htc] at hw
          have hbind : ((some t).bind TargetsRec.cloudflare).getD ([] : TargetConfig) = cfg := by
            show (t.cloudflare).getD [] = cfg
            rw [htc]
            rfl
          rw [hbind] at hcn
          exact mergeTargetCfg_ne_none_right hw.1 hcn
  | some m =>
    have hcomb : combineTargets
        (mergeTargetCfg ((A.bind TargetsRec.github).getD [])
          ((B.bind TargetsRec.github).getD []))
        (mergeTargetCfg ((A.bind TargetsRec.cloudflare).getD [])
          ((B.bind TargetsRec.cloudflare).getD [])) = some m := by
      cases A with
      | none =>
        cases B with
        | none => exact absurd hM (by simp [mergeTargets])
        | some t => exact hM
      | some a => exact hM
    have hm := combineTargets_eq_some hcomb
    subst hm
    show combineTargets
        (mergeTargetCfg ((mergeTargetCfg ((A.bind TargetsRec.github).getD [])
            ((B.bind TargetsRec.github).getD [])).getD [])
          ((B.bind TargetsRec.github).getD []))
        (mergeTargetCfg ((mergeTargetCfg ((A.bind TargetsRec.cloudflare).getD [])
            ((B.bind TargetsRec.cloudflare).getD [])).getD [])
          ((B.bind TargetsRec.cloudflare).getD [])) = _
    rw [mergeTargetCfg_absorb hsg, mergeTargetCfg_absorb hsc]
    exact hcomb

/-- C4: the object `mergeConfigs` builds carries at most the keys
`project`, `vault`, `providers` and `targets` — in particular its
`backend` field is always absent, so the setup command's rewrite of
`shipkey.json` discards a persisted backend selection on every rescan. -/
theorem claim_C4 :
    ∀ existing scanned : ShipkeyConfig,
      (mergeConfigs existing scanned).backend = none :=
  fun _ _ => rfl

/-- A config that persists a backend selection. -/
def cfgBackend : ShipkeyConfig :=
  { project := str "myapp", vault := str "shipkey",
    backend := some (str "bitwarden") }

/-- C2 counterexample: for the valid config
`{project:"myapp", vault:"shipkey", backend:"bitwarden"}`, the merge is
*not* idempotent — `mergeConfigs(X, X)` drops the `backend` field, so the
result differs from `X`. -/
theorem claim_C2_cex : mergeConfigs cfgBackend cfgBackend ≠ cfgBackend := by
  decide

/-- C2 (amended): for well-formed configs — no `backend` field; each
provider's `fields` duplicate-free; `guide`/`guide_url` absent or
non-empty; `permissions` absent or non-empty; `providers` absent or
non-empty with distinct names; `targets` absent, or with at least one
platform present, every present platform non-empty with distinct
destinations and duplicate-free array destinations — the merge is
idempotent: `mergeConfigs(X, X) = X`, and
`mergeConfigs(mergeConfigs(A, B), B) = mergeConfigs(A, B)`. A config
whose `backend` field is set breaks the first law (the merge drops it). -/
theorem claim_C2 (X A B : ShipkeyConfig)
    (hX : wfConfig X) (_hA : wfConfig A) (hB : wfConfig B) :
    mergeConfigs X X = X ∧
    mergeConfigs (mergeConfigs A B) B = mergeConfigs A B := by
  constructor
  · obtain ⟨Xp, Xv, Xb, XP, XT⟩ := X
    obtain ⟨hback, hprov, htarg⟩ := hX
    have hb : Xb = none := hback
    subst hb
    unfold mergeConfigs
    simp only [ShipkeyConfig.mk.injEq]
    refine ⟨trivial, trivial, trivial, ?_, ?_⟩
    · cases XP with
      | none => rfl
      | some m =>
        have hm : m ≠ [] ∧ wfProvMap m := hprov
        show (if mergeProviders m m = [] then none
              else some (mergeProviders m m)) = some m
        rw [mergeProviders_self hm.2, if_neg hm.1]
    · cases XT with
      | none => rfl
      | some t => exact mergeTargets_self htarg
  · obtain ⟨hbB, hprovB, htargB⟩ := hB
    have hsP : ∀ q ∈ ((B.providers.getD []) : ProvMap), wfProv q.2 := by
      cases hBp : B.providers with
      | none => intro q hq; simp at hq
      | some m =>
        intro q hq
        have hm : m ≠ [] ∧ wfProvMap m := by
          rw [hBp] at hprovB
          exact hprovB
        exact hm.2.2 q hq
    unfold mergeConfigs
    simp only [ShipkeyConfig.mk.injEq]
    refine ⟨trivial, trivial, trivial, ?_, ?_⟩
    · have hgetD : ((if mergeProviders (A.providers.getD [])
          (B.providers.getD []) = [] then none
          else some (mergeProviders (A.providers.getD [])
            (B.providers.getD []))).getD ([] : ProvMap)) =
          mergeProviders (A.providers.getD []) (B.providers.getD []) := by
        split_ifs with h
        · exact h.symm
        · rfl
      rw [hgetD, mergeProviders_absorb hsP]
    · exact mergeTargets_absorb htargB

/-- The valid config pair exercising both C2 laws. -/
def cfgA : ShipkeyConfig :=
  { project := str "myapp", vault := str "shipkey",
    providers := some [(str "OpenAI", { fields := [str "OPENAI_API_KEY"] })],
    targets := some { github := some [(str "secrets",
      .arr [str "OPENAI_API_KEY"])] } }

def cfgB : ShipkeyConfig :=
  { project := str "x", vault := str "y",
    providers := some [(str "OpenAI", { fields := [str "OPENAI_ORG"] }),
                       (str "Stripe", { fields := [str "STRIPE_KEY"] })] }

/-- C2 witness: both merge laws at the concrete well-formed configs. -/
theorem claim_C2_witness :
    mergeConfigs cfgA cfgA = cfgA ∧
    mergeConfigs (mergeConfigs cfgA cfgB) cfgB = mergeConfigs cfgA cfgB :=
  ⟨(claim_C2 cfgA cfgA cfgB (by decide) (by decide) (by decide)).1,
   (claim_C2 cfgA cfgA cfgB (by decide) (by decide) (by decide)).2⟩

end Shipkey
